import Mathlib

/-!
Shallow embedding of the aside-table markup parser from src/main.ts
(`formatTable` and the per-line regexes it applies), together with
theorems about its behaviour.  Machine strings are modelled as Lean
`String` / `List Char`; the JavaScript regex semantics (lazy groups,
one-character negative lookbehind, multiline anchors, greedy
character classes, `matchAll` scanning) are translated into explicit
recursive scanners over character lists.
-/

namespace Aside

/-- Mirror of the `Thumbnail` interface in src/main.ts. -/
structure Thumbnail where
  url : String
  description : Option String
  deriving Repr, DecidableEq

/-- Mirror of `string | string[]` in the `TableEntry` interface of src/main.ts. -/
inductive EntryValue where
  | single : String → EntryValue
  | list : List String → EntryValue
  deriving Repr, DecidableEq

/-- Mirror of the `TableEntry` interface in src/main.ts. -/
structure TableEntry where
  key : String
  value : EntryValue
  deriving Repr, DecidableEq

/-- Mirror of the `Group` interface in src/main.ts. -/
structure Group where
  name : String
  entries : List TableEntry
  deriving Repr, DecidableEq

/-- Mirror of the `AsyncTable` interface in src/main.ts (thumbnails and groups). -/
structure AsyncTable where
  thumbnails : List Thumbnail
  groups : List Group
  deriving Repr, DecidableEq

/-- Scanner for the regex fragment `(.*?)(?<!\\)X(rest)`: find the first
occurrence of the delimiter `d` whose immediately preceding character is not
a backslash, and split there.  `prev` is the character just before the
current position in the original string (the negative lookbehind examines
exactly one character). -/
def splitFirstUnescaped (d : Char) : Char → List Char → Option (List Char × List Char)
  | _, [] => none
  | prev, c :: rest =>
    if c = d ∧ prev ≠ '\\' then some ([], rest)
    else (splitFirstUnescaped d c rest).map (fun p => (c :: p.1, p.2))

/-- Whether the list contains a delimiter occurrence that the one-character
negative lookbehind `(?<!\\)` would accept; `prev` is the character just
before the start of the list in the original string. -/
def hasUnescaped (d : Char) : Char → List Char → Bool
  | _, [] => false
  | prev, c :: rest =>
    if c = d ∧ prev ≠ '\\' then true else hasUnescaped d c rest

/-- Scanner for `String.prototype.split(/(?<!\\)X/g)`: split at every
occurrence of `d` not immediately preceded by a backslash. -/
def splitAllUnescaped (d : Char) : Char → List Char → List (List Char)
  | _, [] => [[]]
  | prev, c :: rest =>
    if c = d ∧ prev ≠ '\\' then [] :: splitAllUnescaped d c rest
    else (c :: (splitAllUnescaped d c rest).headD []) :: (splitAllUnescaped d c rest).tail

/-- Scanner for `String.prototype.replace("\\X", "X")`: remove the backslash
of the FIRST occurrence of the two-character sequence backslash-`d`
(JavaScript `replace` with a string pattern replaces only the first
occurrence). -/
def replaceFirstEsc (d : Char) : List Char → List Char
  | [] => []
  | [c] => [c]
  | c :: c2 :: rest =>
    if c = '\\' ∧ c2 = d then c2 :: rest
    else c :: replaceFirstEsc d (c2 :: rest)

/-- Whether the two-character sequence backslash-`d` occurs in the list. -/
def hasEscPair (d : Char) : List Char → Bool
  | [] => false
  | [_] => false
  | c :: c2 :: rest =>
    if c = '\\' ∧ c2 = d then true else hasEscPair d (c2 :: rest)

/-- Decompose a character list into its newline-separated lines, the way the
multiline anchors `^`/`$` partition a JavaScript string. -/
def splitLines : List Char → List (List Char)
  | [] => [[]]
  | c :: rest =>
    if c = '\n' then [] :: splitLines rest
    else (c :: (splitLines rest).headD []) :: (splitLines rest).tail

/-- Per-line translation of the thumbnail regex
`^!(.*?)(?:(?<!\\)\|(.*))?$` from src/main.ts line 127: a line starting with
`!` always matches; the URL part ends at the first `|` not preceded by a
backslash, and everything after it (to the end of the line) is the
description; with no such `|` the whole rest of the line is the URL and the
description is absent.  The raw URL text is passed through the link
resolver, mirroring `this.getImageLink(match[1])`. -/
def parseThumbLine (resolve : String → String) (l : List Char) : Option Thumbnail :=
  match l with
  | [] => none
  | c :: rest =>
    if c = '!' then
      match splitFirstUnescaped '|' '!' rest with
      | some p => some ⟨resolve (String.mk p.1), some (String.mk p.2)⟩
      | none => some ⟨resolve (String.mk rest), none⟩
    else none

/-- Mirror of `value.length === 1 ? value[0] : value` in src/main.ts line 137. -/
def mkValue : List String → EntryValue
  | [s] => EntryValue.single s
  | l => EntryValue.list l

/-- Mirror of src/main.ts line 135: split the raw value text at every
unescaped `;` and remove the backslash of the first `\;` of each segment
(`entryMatch[2].split(/(?<!\\);/g).map(v => v.replace("\\;", ";"))`).
The character preceding the value text in the source line is always the
splitting colon, hence the initial lookbehind context `:`. -/
def decodeSegs (v : List Char) : List String :=
  (splitAllUnescaped ';' ':' v).map (fun seg => String.mk (replaceFirstEsc ';' seg))

/-- Per-line translation of the entry regex `^-(.*?)(?<!\\):(.*)$` from
src/main.ts line 133 plus the key/value decoding of lines 134-137: a line
starting with `-` whose remainder contains an unescaped `:` is split at the
first such colon; the backslash of the first `\:` of the key is removed,
and the value text is split into segments. -/
def parseEntryLine (l : List Char) : Option TableEntry :=
  match l with
  | [] => none
  | c :: rest =>
    if c = '-' then
      match splitFirstUnescaped ':' '-' rest with
      | some kv => some ⟨String.mk (replaceFirstEsc ':' kv.1), mkValue (decodeSegs kv.2)⟩
      | none => none
    else none

/-- The inner `matchAll` of src/main.ts line 133 over a group body: every
line of the body is tried against the entry regex, in order. -/
def entriesFromLines (ls : List (List Char)) : List TableEntry :=
  ls.filterMap parseEntryLine

/-- Dropping a prefix by a predicate never lengthens a list. -/
theorem dropWhile_length_le (p : Char → Bool) (l : List Char) :
    (l.dropWhile p).length ≤ l.length := by
  induction l with
  | nil => simp
  | cons a l ih =>
    by_cases h : p a
    · simp only [List.dropWhile_cons, h, if_true, List.length_cons]
      omega
    · simp [List.dropWhile_cons, h]

/-- Translation of `matchAll` with the group regex
`^#(.*)\n-((?:[^#]|\n)*)(?=#|$)` from src/main.ts line 132, scanning the
source left to right.  A match needs a line-start `#` (the flag `atStart`
records whether the current position is at a line start), a header running
to a newline, and a `-` as the very next character; the body is then the
maximal run of characters containing no `#` (the character class `[^#]`
also matches newlines, so a `#` anywhere ends the body).  Scanning resumes
at the end of the body. -/
def findGroupsF (fuel : Nat) : Bool → List Char → List (List Char × List Char) :=
  fun atStart l =>
    match fuel with
    | 0 => []
    | fuel + 1 =>
      match l with
      | [] => []
      | c :: rest =>
        if atStart ∧ c = '#' then
          let hdr := rest.takeWhile (fun x => x ≠ '\n')
          let rest2 := rest.drop (hdr.length + 1)
          if hdr.length < rest.length then
            if rest2.head? = some '-' then
              let body := rest2.tail.takeWhile (fun x => x ≠ '#')
              let rem := rest2.tail.dropWhile (fun x => x ≠ '#')
              (hdr, body) :: findGroupsF fuel (body.getLast? == some '\n') rem
            else findGroupsF fuel true rest2
          else []
        else findGroupsF fuel (c == '\n') rest

/-- Every scanning step consumes at least one character, so `l.length + 1`
units of fuel are always enough; with adequate fuel the result does not
depend on the exact amount. -/
theorem findGroupsF_congr :
    ∀ (fuel fuel' : Nat) (atStart : Bool) (l : List Char),
      l.length < fuel → l.length < fuel' →
      findGroupsF fuel atStart l = findGroupsF fuel' atStart l := by
  intro fuel
  induction fuel with
  | zero => intro fuel' a l h _; exact absurd h (Nat.not_lt_zero _)
  | succ fuel ih =>
    intro fuel' a l h h'
    cases fuel' with
    | zero => exact absurd h' (Nat.not_lt_zero _)
    | succ fuel' =>
      cases l with
      | nil => rfl
      | cons c rest =>
        simp only [findGroupsF]
        have hrest : rest.length < fuel ∧ rest.length < fuel' := by
          simp only [List.length_cons] at h h'
          omega
        by_cases h1 : a = true ∧ c = '#'
        · rw [if_pos h1, if_pos h1]
          by_cases h2 :
              (rest.takeWhile (fun x => x ≠ '\n')).length < rest.length
          · rw [if_pos h2, if_pos h2]
            by_cases h3 :
                (rest.drop ((rest.takeWhile (fun x => x ≠ '\n')).length + 1)).head? =
                  some '-'
            · rw [if_pos h3, if_pos h3]
              have hb :
                  ((rest.drop ((rest.takeWhile (fun x => x ≠ '\n')).length + 1)).tail.dropWhile
                      (fun x => x ≠ '#')).length ≤ rest.length := by
                refine le_trans (dropWhile_length_le _ _) ?_
                simp only [List.length_tail, List.length_drop]
                omega
              congr 1
              exact ih fuel' _ _ (by omega) (by omega)
            · rw [if_neg h3, if_neg h3]
              have hb :
                  (rest.drop ((rest.takeWhile (fun x => x ≠ '\n')).length + 1)).length ≤
                    rest.length := by
                simp only [List.length_drop]
                omega
              exact ih fuel' _ _ (by omega) (by omega)
          · rw [if_neg h2, if_neg h2]
        · rw [if_neg h1, if_neg h1]
          exact ih fuel' _ _ hrest.1 hrest.2

/-- Translation of `matchAll` with the group regex, entry point: scanning a
list always terminates within `length + 1` steps. -/
def findGroups (atStart : Bool) (l : List Char) : List (List Char × List Char) :=
  findGroupsF (l.length + 1) atStart l

/-- One-step unfolding of `findGroupsF` on a nonempty list. -/
theorem findGroupsF_succ_cons (fuel : Nat) (atStart : Bool) (c : Char) (rest : List Char) :
    findGroupsF (fuel + 1) atStart (c :: rest) =
      (if atStart ∧ c = '#' then
        (if (rest.takeWhile (fun x => x ≠ '\n')).length < rest.length then
          (if (rest.drop ((rest.takeWhile (fun x => x ≠ '\n')).length + 1)).head? =
              some '-' then
            ((rest.takeWhile (fun x => x ≠ '\n')),
              ((rest.drop ((rest.takeWhile (fun x => x ≠ '\n')).length + 1)).tail.takeWhile
                (fun x => x ≠ '#'))) ::
              findGroupsF fuel
                (((rest.drop ((rest.takeWhile (fun x => x ≠ '\n')).length + 1)).tail.takeWhile
                    (fun x => x ≠ '#')).getLast? == some '\n')
                ((rest.drop ((rest.takeWhile (fun x => x ≠ '\n')).length + 1)).tail.dropWhile
                  (fun x => x ≠ '#'))
          else findGroupsF fuel true
            (rest.drop ((rest.takeWhile (fun x => x ≠ '\n')).length + 1)))
        else [])
      else findGroupsF fuel (c == '\n') rest) := rfl

/-- The scanning recurrence satisfied by `findGroups`, with the fuel hidden:
this is the step-by-step reading of the group regex `matchAll` loop. -/
theorem findGroups_cons (atStart : Bool) (c : Char) (rest : List Char) :
    findGroups atStart (c :: rest) =
      (if atStart ∧ c = '#' then
        (if (rest.takeWhile (fun x => x ≠ '\n')).length < rest.length then
          (if (rest.drop ((rest.takeWhile (fun x => x ≠ '\n')).length + 1)).head? =
              some '-' then
            ((rest.takeWhile (fun x => x ≠ '\n')),
              ((rest.drop ((rest.takeWhile (fun x => x ≠ '\n')).length + 1)).tail.takeWhile
                (fun x => x ≠ '#'))) ::
              findGroups
                (((rest.drop ((rest.takeWhile (fun x => x ≠ '\n')).length + 1)).tail.takeWhile
                    (fun x => x ≠ '#')).getLast? == some '\n')
                ((rest.drop ((rest.takeWhile (fun x => x ≠ '\n')).length + 1)).tail.dropWhile
                  (fun x => x ≠ '#'))
          else findGroups true (rest.drop ((rest.takeWhile (fun x => x ≠ '\n')).length + 1)))
        else [])
      else findGroups (c == '\n') rest) := by
  show findGroupsF (rest.length + 1 + 1) atStart (c :: rest) = _
  rw [findGroupsF_succ_cons]
  simp only [findGroups]
  by_cases h1 : atStart = true ∧ c = '#'
  · rw [if_pos h1, if_pos h1]
    by_cases h2 : (rest.takeWhile (fun x => x ≠ '\n')).length < rest.length
    · rw [if_pos h2, if_pos h2]
      by_cases h3 :
          (rest.drop ((rest.takeWhile (fun x => x ≠ '\n')).length + 1)).head? = some '-'
      · rw [if_pos h3, if_pos h3]
        have hb :
            ((rest.drop ((rest.takeWhile (fun x => x ≠ '\n')).length + 1)).tail.dropWhile
                (fun x => x ≠ '#')).length ≤ rest.length := by
          refine le_trans (dropWhile_length_le _ _) ?_
          simp only [List.length_tail, List.length_drop]
          omega
        congr 1
        refine findGroupsF_congr _ _ _ _ ?_ ?_ <;> omega
      · rw [if_neg h3, if_neg h3]
        have hb :
            (rest.drop ((rest.takeWhile (fun x => x ≠ '\n')).length + 1)).length ≤
              rest.length := by
          simp only [List.length_drop]
          omega
        refine findGroupsF_congr _ _ _ _ ?_ ?_ <;> omega
    · rw [if_neg h2, if_neg h2]
  · rw [if_neg h1, if_neg h1]

/-- Translation of `formatTable` from src/main.ts lines 106-144: collect a
thumbnail from every `!`-line of the source, and build a group from every
match of the group regex, decoding the entry lines of each captured body. -/
def formatTable (resolve : String → String) (source : String) : AsyncTable :=
  { thumbnails := (splitLines source.data).filterMap (parseThumbLine resolve),
    groups := (findGroups true source.data).map
      (fun g => { name := String.mk g.1, entries := entriesFromLines (splitLines g.2) }) }

/-- The scanner finds no split point exactly when the list has no unescaped
delimiter occurrence. -/
theorem splitFirstUnescaped_none_iff (d : Char) (prev : Char) (l : List Char) :
    splitFirstUnescaped d prev l = none ↔ hasUnescaped d prev l = false := by
  induction l generalizing prev with
  | nil => simp [splitFirstUnescaped, hasUnescaped]
  | cons c rest ih =>
    simp only [splitFirstUnescaped, hasUnescaped]
    by_cases hc : c = d ∧ prev ≠ '\\'
    · simp [hc]
    · simp only [hc, if_false, Option.map_eq_none']
      exact ih c

/-- Characterisation of the split scanner: it returns `(k, v)` exactly when
the input is `k ++ d :: v`, no delimiter occurrence inside `k` is unescaped,
and the delimiter after `k` is itself unescaped (the character before it,
which is the last of `k` or the outer context `prev`, is not a backslash). -/
theorem splitFirstUnescaped_some_iff (d : Char) (prev : Char) (l k v : List Char) :
    splitFirstUnescaped d prev l = some (k, v) ↔
      (l = k ++ d :: v ∧ hasUnescaped d prev k = false ∧ k.getLastD prev ≠ '\\') := by
  induction l generalizing prev k with
  | nil =>
    simp only [splitFirstUnescaped]
    constructor
    · intro h; simp at h
    · rintro ⟨h, -, -⟩; cases k <;> simp at h
  | cons c rest ih =>
    simp only [splitFirstUnescaped]
    by_cases hc : c = d ∧ prev ≠ '\\'
    · rw [if_pos hc]
      constructor
      · intro h
        simp only [Option.some.injEq, Prod.mk.injEq] at h
        obtain ⟨hk, hv⟩ := h
        subst hk; subst hv
        refine ⟨by simp [hc.1], rfl, ?_⟩
        simpa [List.getLastD_nil] using hc.2
      · rintro ⟨hl, hk, hlast⟩
        cases k with
        | nil =>
          simp only [List.nil_append] at hl
          obtain ⟨h1, h2⟩ := List.cons.inj hl
          subst h2
          rfl
        | cons a as =>
          simp only [List.cons_append] at hl
          obtain ⟨h1, h2⟩ := List.cons.inj hl
          subst h1
          simp only [hasUnescaped, if_pos hc] at hk
          exact absurd hk (by decide)
    · rw [if_neg hc]
      simp only [Option.map_eq_some']
      constructor
      · rintro ⟨⟨k', v'⟩, hsplit, hpair⟩
        simp only [Prod.mk.injEq] at hpair
        obtain ⟨hk, hv⟩ := hpair
        subst hk; subst hv
        obtain ⟨h1, h2, h3⟩ := (ih c k').mp hsplit
        refine ⟨by simp [h1], ?_, ?_⟩
        · simp [hasUnescaped, hc, h2]
        · rw [List.getLastD_cons]
          exact h3
      · rintro ⟨hl, hk, hlast⟩
        cases k with
        | nil =>
          simp only [List.nil_append] at hl
          obtain ⟨h1, h2⟩ := List.cons.inj hl
          rw [List.getLastD_nil] at hlast
          exact absurd ⟨h1, hlast⟩ hc
        | cons a as =>
          simp only [List.cons_append] at hl
          obtain ⟨h1, h2⟩ := List.cons.inj hl
          subst h1
          rw [List.getLastD_cons] at hlast
          simp only [hasUnescaped, if_neg hc] at hk
          exact ⟨(as, v), (ih c as).mpr ⟨h2, hk, hlast⟩, rfl⟩

/-- The all-splitting scanner always produces at least one segment
(JavaScript `split` never returns an empty array). -/
theorem splitAllUnescaped_ne_nil (d prev : Char) (l : List Char) :
    splitAllUnescaped d prev l ≠ [] := by
  cases l with
  | nil => simp [splitAllUnescaped]
  | cons c rest =>
    simp only [splitAllUnescaped]
    by_cases hc : c = d ∧ prev ≠ '\\' <;> simp [hc]

/-- The decoded segment list of a value text is never empty. -/
theorem decodeSegs_ne_nil (v : List Char) : decodeSegs v ≠ [] := by
  simp only [decodeSegs, ne_eq, List.map_eq_nil_iff]
  exact splitAllUnescaped_ne_nil ';' ':' v

/-- Removing the backslash of the first escaped delimiter: if `xs` contains
no backslash-`d` pair, the replacement rewrites exactly the pair that
follows `xs` and leaves the remainder `ys` untouched. -/
theorem replaceFirstEsc_append (d : Char) (xs ys : List Char)
    (h : hasEscPair d xs = false) :
    replaceFirstEsc d (xs ++ '\\' :: d :: ys) = xs ++ d :: ys := by
  induction xs with
  | nil => simp [replaceFirstEsc]
  | cons a as ih =>
    cases as with
    | nil =>
      by_cases ha : a = '\\' ∧ '\\' = d
      · obtain ⟨ha1, ha2⟩ := ha
        subst ha1
        subst ha2
        simp [replaceFirstEsc]
      · simp only [List.cons_append, List.nil_append, replaceFirstEsc, if_neg ha]
        simp [replaceFirstEsc]
    | cons b bs =>
      have hsp : ¬ (a = '\\' ∧ b = d) := by
        intro hab
        simp [hasEscPair, if_pos hab] at h
      have h' : hasEscPair d (b :: bs) = false := by
        simpa [hasEscPair, if_neg hsp] using h
      simp only [List.cons_append] at ih ⊢
      simp only [replaceFirstEsc, if_neg hsp]
      rw [ih h']

/-- Taking while a predicate holds, over an append whose left part satisfies
the predicate everywhere and whose next element falsifies it, yields exactly
the left part. -/
theorem takeWhile_append_sat (p : Char → Bool) (xs : List Char) (x : Char) (ys : List Char)
    (h : ∀ a ∈ xs, p a = true) (hx : p x = false) :
    (xs ++ x :: ys).takeWhile p = xs := by
  rw [List.takeWhile_append, List.takeWhile_eq_self_iff.mpr h]
  simp [List.takeWhile_cons, hx]

/-- Dropping while a predicate holds, over an append whose left part
satisfies the predicate everywhere and whose next element falsifies it,
yields the element and everything after it. -/
theorem dropWhile_append_sat (p : Char → Bool) (xs : List Char) (x : Char) (ys : List Char)
    (h : ∀ a ∈ xs, p a = true) (hx : p x = false) :
    (xs ++ x :: ys).dropWhile p = x :: ys := by
  rw [List.dropWhile_append, List.dropWhile_eq_nil_iff.mpr h]
  simp [List.dropWhile_cons, hx]

/-- C1 counterexample: parsing the source `#EmptySection`, a header line
with no following entry lines, produces NO group at all (the group regex of
src/main.ts line 132 demands a `-` right after the header newline), so in
particular it does not produce a Group named "EmptySection" with an empty
entries sequence. -/
theorem c1_counterexample :
    (formatTable (fun s => s) "#EmptySection").groups = [] ∧
      (formatTable (fun s => s) "#EmptySection").groups ≠
        [⟨"EmptySection", []⟩] := by
  constructor <;> decide

/-- C1 amended: a header line that is not followed by a newline and a line
starting with `-` produces no Group at all; a Group with an empty entries
sequence does arise when the mandatory `-` line region contains no valid
entry line, e.g. `#EmptySection\n-`. -/
theorem c1_empty_header_no_group :
    (∀ cs : List Char, '\n' ∉ cs → findGroups true ('#' :: cs) = []) ∧
      (∀ r : String → String,
        (formatTable r "#EmptySection\n-").groups = [⟨"EmptySection", []⟩]) := by
  constructor
  · intro cs h
    rw [findGroups_cons, if_pos ⟨rfl, rfl⟩]
    have htw : cs.takeWhile (fun x => x ≠ '\n') = cs :=
      List.takeWhile_eq_self_iff.mpr
        (fun x hx => decide_eq_true (fun hx' => h (hx' ▸ hx)))
    rw [htw, if_neg (lt_irrefl cs.length)]
  · intro r
    rfl

/-- C1 witness: the general part of the amended statement applied to the
concrete header text "EmptySection". -/
theorem c1_witness :
    ('\n' ∉ "EmptySection".data) ∧
      findGroups true ('#' :: "EmptySection".data) = [] :=
  ⟨by decide, c1_empty_header_no_group.1 "EmptySection".data (by decide)⟩

/-- C2 counterexample: the thumbnail line `!a\|b|desc` is split at the first
unescaped `|`, but the escaped separator keeps its backslash: the stored url
segment is "a\|b", not "a|b" (src/main.ts lines 127-129 never unescape the
thumbnail url). -/
theorem c2_counterexample :
    (formatTable (fun s => s) "!a\\|b|desc").thumbnails =
        [⟨"a\\|b", some "desc"⟩] ∧
      (formatTable (fun s => s) "!a\\|b|desc").thumbnails ≠
        [⟨"a|b", some "desc"⟩] := by
  constructor <;> decide

/-- C2 amended: for every thumbnail line the first unescaped `|` is the
separator, and an escaped `\|` is literal content of the url segment with
its backslash RETAINED (no unescaping is applied to thumbnail urls): the
line `!a\|b|desc` yields url segment "a\|b" and description "desc", and in
general any url text with no unescaped pipe is stored verbatim. -/
theorem c2_escaped_pipe_kept :
    (∀ r : String → String,
      (formatTable r "!a\\|b|desc").thumbnails = [⟨r "a\\|b", some "desc"⟩]) ∧
      (∀ (r : String → String) (u dsc : List Char),
        hasUnescaped '|' '!' u = false → u.getLastD '!' ≠ '\\' →
        parseThumbLine r ('!' :: (u ++ '|' :: dsc)) =
          some ⟨r (String.mk u), some (String.mk dsc)⟩) := by
  constructor
  · intro r
    rfl
  · intro r u dsc h1 h2
    have hs : splitFirstUnescaped '|' '!' (u ++ '|' :: dsc) = some (u, dsc) :=
      (splitFirstUnescaped_some_iff '|' '!' _ u dsc).mpr ⟨rfl, h1, h2⟩
    simp [parseThumbLine, hs]

/-- C2 witness: the general part of the amended statement at the concrete
url text "a\|b" and description "desc". -/
theorem c2_witness :
    hasUnescaped '|' '!' "a\\|b".data = false ∧
      "a\\|b".data.getLastD '!' ≠ '\\' ∧
      parseThumbLine (fun s => s) ('!' :: ("a\\|b".data ++ '|' :: "desc".data)) =
        some ⟨String.mk "a\\|b".data, some (String.mk "desc".data)⟩ :=
  ⟨by decide, by decide,
    c2_escaped_pipe_kept.2 (fun s => s) "a\\|b".data "desc".data (by decide) (by decide)⟩

/-- C3 counterexample: a blank line as the FIRST line after the header kills
the whole group: `#G` followed by a blank line followed by `-HP:10` produces
no group at all, whereas the claim says the blank line is ignored and the
group with its entry is still produced. -/
theorem c3_counterexample :
    (formatTable (fun s => s) "#G\n\n-HP:10").groups = [] ∧
      (formatTable (fun s => s) "#G\n\n-HP:10").groups ≠
        [⟨"G", [⟨"HP", EntryValue.single "10"⟩]⟩] := by
  constructor <;> decide

/-- C3 amended: within the captured entry region, any line that is blank or
does not start with `-` is ignored and the other entries are unaffected;
but the line immediately after the header must itself start with `-`, or no
group is produced at all. -/
theorem c3_nonentry_lines_ignored :
    (∀ (l : List Char) (xs ys : List (List Char)), l.head? ≠ some '-' →
      entriesFromLines (xs ++ l :: ys) = entriesFromLines (xs ++ ys)) ∧
      (∀ r : String → String,
        (formatTable r "#G\n-\n\nnote\n-HP:10").groups =
          [⟨"G", [⟨"HP", EntryValue.single "10"⟩]⟩]) := by
  constructor
  · intro l xs ys h
    have hnone : parseEntryLine l = none := by
      cases l with
      | nil => rfl
      | cons c cs =>
        have hc : ¬ c = '-' := fun hc => h (by simp [hc])
        simp [parseEntryLine, hc]
    simp [entriesFromLines, List.filterMap_append, List.filterMap_cons, hnone]
  · intro r
    rfl

/-- C3 witness: inserting the non-entry line "note" between two entry lines
leaves the decoded entries unchanged. -/
theorem c3_witness :
    ("note".data.head? ≠ some '-') ∧
      entriesFromLines (["-a:b".data] ++ "note".data :: ["-c:d".data]) =
        entriesFromLines (["-a:b".data] ++ ["-c:d".data]) :=
  ⟨by decide,
    c3_nonentry_lines_ignored.1 "note".data ["-a:b".data] ["-c:d".data] (by decide)⟩

/-- C4 counterexample: in `#G\n-a:b\nx#y\n-c:d` there is no further header
LINE, so by the claim the whole remainder (including the line `-c:d`) would
belong to the entry region of group "G" and an entry with key "c" would be
produced; in fact the `#` in the middle of the line `x#y` ends the region,
and the group has no entries at all. -/
theorem c4_counterexample :
    (formatTable (fun s => s) "#G\n-a:b\nx#y\n-c:d").groups = [⟨"G", []⟩] ∧
      (formatTable (fun s => s) "#G\n-a:b\nx#y\n-c:d").groups ≠
        [⟨"G", [⟨"c", EntryValue.single "d"⟩]⟩] := by
  constructor <;> decide

/-- C4 amended: the raw entry region of a group consists of the characters
after the mandatory `-` up to (not including) the next `#` CHARACTER,
wherever it occurs, or end of input; a `#` in the middle of a line ends the
region (the character class `[^#]` of the group regex excludes `#`
everywhere, not only at line starts). -/
theorem c4_region_ends_at_hash :
    (∀ (h b t : List Char), '\n' ∉ h → '#' ∉ b →
      findGroups true ('#' :: (h ++ '\n' :: '-' :: (b ++ '#' :: t))) =
        (h, b) :: findGroups (b.getLast? == some '\n') ('#' :: t)) ∧
      (∀ r : String → String,
        (formatTable r "#G\n-a:b\nx#y\n-c:d").groups = [⟨"G", []⟩]) := by
  constructor
  · intro h b t hn hb
    rw [findGroups_cons, if_pos ⟨rfl, rfl⟩]
    have htw : (h ++ '\n' :: '-' :: (b ++ '#' :: t)).takeWhile (fun x => x ≠ '\n') = h :=
      takeWhile_append_sat _ h '\n' _
        (fun a ha => decide_eq_true (fun ha' => hn (ha' ▸ ha))) (by simp)
    rw [htw]
    have hlen : h.length < (h ++ '\n' :: '-' :: (b ++ '#' :: t)).length := by
      simp only [List.length_append, List.length_cons]
      omega
    rw [if_pos hlen]
    have hdrop :
        (h ++ '\n' :: '-' :: (b ++ '#' :: t)).drop (h.length + 1) =
          '-' :: (b ++ '#' :: t) := by
      have hsplit :
          h ++ '\n' :: '-' :: (b ++ '#' :: t) =
            (h ++ ['\n']) ++ ('-' :: (b ++ '#' :: t)) := by
        simp
      have hl : (h ++ ['\n']).length = h.length + 1 := by
        simp
      rw [hsplit, ← hl, List.drop_left]
    rw [hdrop]
    have hcond : ('-' :: (b ++ '#' :: t)).head? = some '-' := rfl
    rw [if_pos hcond]
    have hbody : (b ++ '#' :: t).takeWhile (fun x => x ≠ '#') = b :=
      takeWhile_append_sat _ b '#' t
        (fun a ha => decide_eq_true (fun ha' => hb (ha' ▸ ha))) (by simp)
    have hrem : (b ++ '#' :: t).dropWhile (fun x => x ≠ '#') = '#' :: t :=
      dropWhile_append_sat _ b '#' t
        (fun a ha => decide_eq_true (fun ha' => hb (ha' ▸ ha))) (by simp)
    simp only [List.tail_cons, hbody, hrem]
  · intro r
    rfl

/-- C4 witness: the general part of the amended statement at header "G",
region "a:b\nx" and remainder "y". -/
theorem c4_witness :
    ('\n' ∉ "G".data) ∧ ('#' ∉ "a:b\nx".data) ∧
      findGroups true ('#' :: ("G".data ++ '\n' :: '-' :: ("a:b\nx".data ++ '#' :: "y".data))) =
        ("G".data, "a:b\nx".data) ::
          findGroups ("a:b\nx".data.getLast? == some '\n') ('#' :: "y".data) :=
  ⟨by decide, by decide,
    c4_region_ends_at_hash.1 "G".data "a:b\nx".data "y".data (by decide) (by decide)⟩

/-- C5 counterexample: in the entry line `-a\:b\::v` the raw key is
`a\:b\:`; JavaScript `replace` with a string pattern rewrites only the FIRST
occurrence, so the decoded key is "a:b\:", not "a:b:" as the claim (every
occurrence replaced) would require. -/
theorem c5_counterexample :
    (formatTable (fun s => s) "#G\n-\n-a\\:b\\::v").groups =
        [⟨"G", [⟨"a:b\\:", EntryValue.single "v"⟩]⟩] ∧
      ("a:b\\:" : String) ≠ "a:b:" := by
  constructor <;> decide

/-- C5 amended: escape decoding removes the backslash of only the FIRST
occurrence of the escaped delimiter in the key (resp. in each value
segment); any later occurrences keep their backslashes, as the untouched
suffix `ys` in the general statement shows. -/
theorem c5_replace_first_only :
    (∀ (d : Char) (xs ys : List Char), hasEscPair d xs = false →
      replaceFirstEsc d (xs ++ '\\' :: d :: ys) = xs ++ d :: ys) ∧
      (∀ r : String → String,
        (formatTable r "#G\n-\n-k:x\\;y\\;z").groups =
          [⟨"G", [⟨"k", EntryValue.single "x;y\\;z"⟩]⟩]) := by
  constructor
  · exact fun d xs ys h => replaceFirstEsc_append d xs ys h
  · intro r
    rfl

/-- C5 witness: the general part of the amended statement at delimiter `:`,
clean prefix "ab" and suffix "c\:d" (whose escaped colon stays escaped). -/
theorem c5_witness :
    hasEscPair ':' "ab".data = false ∧
      replaceFirstEsc ':' ("ab".data ++ '\\' :: ':' :: "c\\:d".data) =
        "ab".data ++ ':' :: "c\\:d".data :=
  ⟨by decide, c5_replace_first_only.1 ':' "ab".data "c\\:d".data (by decide)⟩

/-- C6: an entry line is split at the first unescaped colon.  The split
scanner returns `(k, v)` exactly when the input decomposes as `k ++ d :: v`
with no unescaped delimiter inside `k` and an unescaped delimiter at the
boundary; in particular `-Time\::Noon` decodes to key "Time:" and value
"Noon". -/
theorem c6_split_at_first_unescaped_colon :
    (∀ (prev d : Char) (l k v : List Char),
      splitFirstUnescaped d prev l = some (k, v) ↔
        (l = k ++ d :: v ∧ hasUnescaped d prev k = false ∧ k.getLastD prev ≠ '\\')) ∧
      (∀ r : String → String,
        (formatTable r "#G\n-\n-Time\\::Noon").groups =
          [⟨"G", [⟨"Time:", EntryValue.single "Noon"⟩]⟩]) := by
  constructor
  · intro prev d l k v
    exact splitFirstUnescaped_some_iff d prev l k v
  · intro r
    rfl

/-- C6 witness: the characterisation applied to the concrete entry text
`Time\::Noon`, splitting at the second colon. -/
theorem c6_witness :
    splitFirstUnescaped ':' '-' "Time\\::Noon".data =
        some ("Time\\:".data, "Noon".data) ↔
      ("Time\\::Noon".data = "Time\\:".data ++ ':' :: "Noon".data ∧
        hasUnescaped ':' '-' "Time\\:".data = false ∧
        "Time\\:".data.getLastD '-' ≠ '\\') :=
  c6_split_at_first_unescaped_colon.1 '-' ':' "Time\\::Noon".data
    "Time\\:".data "Noon".data

/-- C7: a produced TableEntry value is exactly one of the two variants:
splitting into one segment gives the single-string variant, two or more
segments give the list variant, and every list value produced by the entry
decoder has length at least two. -/
theorem c7_value_variant :
    (∀ (l : List Char) (e : TableEntry), parseEntryLine l = some e →
      ∀ xs, e.value = EntryValue.list xs → 2 ≤ xs.length) ∧
      (∀ s : String, mkValue [s] = EntryValue.single s) ∧
      (∀ segs : List String, 2 ≤ segs.length → mkValue segs = EntryValue.list segs) ∧
      (∀ r : String → String,
        (formatTable r "#G\n-\n-Tags:Red;Blue;Green").groups =
          [⟨"G", [⟨"Tags", EntryValue.list ["Red", "Blue", "Green"]⟩]⟩]) := by
  refine ⟨?_, ?_, ?_, ?_⟩
  · intro l e he xs hxs
    cases l with
    | nil => simp [parseEntryLine] at he
    | cons c cs =>
      by_cases hc : c = '-'
      · subst hc
        simp only [parseEntryLine, if_pos rfl] at he
        cases hs : splitFirstUnescaped ':' '-' cs with
        | none =>
          rw [hs] at he
          simp at he
        | some kv =>
          rw [hs] at he
          simp only [if_true, Option.some.injEq] at he
          subst he
          have hne := decodeSegs_ne_nil kv.2
          cases hsegs : decodeSegs kv.2 with
          | nil => exact absurd hsegs hne
          | cons s1 rest =>
            rw [hsegs] at hxs
            cases rest with
            | nil => simp [mkValue] at hxs
            | cons s2 rest2 =>
              have hval : mkValue (s1 :: s2 :: rest2) = EntryValue.list (s1 :: s2 :: rest2) :=
                rfl
              rw [hval] at hxs
              simp only [EntryValue.list.injEq] at hxs
              rw [← hxs]
              simp only [List.length_cons]
              omega
      · simp [parseEntryLine, hc] at he
  · intro s
    rfl
  · intro segs h
    cases segs with
    | nil => simp at h
    | cons a rest =>
      cases rest with
      | nil => simp at h
      | cons b rest2 => rfl
  · intro r
    rfl

/-- C7 witness: the invariant applied to the concrete entry line `-a:b;c`,
whose value is the two-element list ["b", "c"]. -/
theorem c7_witness :
    parseEntryLine "-a:b;c".data = some ⟨"a", EntryValue.list ["b", "c"]⟩ ∧
      2 ≤ (["b", "c"] : List String).length :=
  ⟨by decide,
    c7_value_variant.1 "-a:b;c".data ⟨"a", EntryValue.list ["b", "c"]⟩ (by decide)
      ["b", "c"] rfl⟩

/-- C8: parsing is total and deterministic: the embedding of `formatTable`
is a total function, so every input (with the resolver fixed) has a
well-defined AsyncTable result, and two parses of the same source are
structurally equal. -/
theorem c8_total_deterministic :
    ∀ (r : String → String) (s : String),
      (∃ t : AsyncTable, formatTable r s = t) ∧ formatTable r s = formatTable r s :=
  fun r s => ⟨⟨formatTable r s, rfl⟩, rfl⟩

/-- C9: a line that starts with `-` but whose remainder has no unescaped
colon yields no TableEntry, and inserting such a line anywhere among the
lines of an entry region leaves the decoded entries unchanged. -/
theorem c9_dash_without_colon_skipped :
    ∀ cs : List Char, hasUnescaped ':' '-' cs = false →
      (parseEntryLine ('-' :: cs) = none ∧
        ∀ xs ys : List (List Char),
          entriesFromLines (xs ++ ('-' :: cs) :: ys) = entriesFromLines (xs ++ ys)) := by
  intro cs h
  have hnone : parseEntryLine ('-' :: cs) = none := by
    simp only [parseEntryLine, if_pos rfl]
    rw [(splitFirstUnescaped_none_iff ':' '-' cs).mpr h]
    simp
  refine ⟨hnone, fun xs ys => ?_⟩
  simp [entriesFromLines, List.filterMap_append, List.filterMap_cons, hnone]

/-- C9 witness: the dash line `-abc` (no colon at all) produces no entry and
does not disturb the entries around it. -/
theorem c9_witness :
    hasUnescaped ':' '-' "abc".data = false ∧
      parseEntryLine ('-' :: "abc".data) = none ∧
      entriesFromLines (["-x:1".data] ++ ('-' :: "abc".data) :: ["-y:2".data]) =
        entriesFromLines (["-x:1".data] ++ ["-y:2".data]) :=
  ⟨by decide, (c9_dash_without_colon_skipped "abc".data (by decide)).1,
    (c9_dash_without_colon_skipped "abc".data (by decide)).2 ["-x:1".data] ["-y:2".data]⟩

/-- C10: thumbnail collection is position-independent: every line beginning
with `!` yields a thumbnail, the thumbnails of a parse are exactly the
`!`-lines of the whole source scanned in order, and a `!`-line occurring
after a group header both contributes a thumbnail and is ignored as an
entry candidate, as the concrete source shows. -/
theorem c10_thumbnails_position_independent :
    ∀ r : String → String,
      (∀ l : List Char, l.head? = some '!' → (parseThumbLine r l).isSome = true) ∧
      (∀ s : String,
        (formatTable r s).thumbnails = (splitLines s.data).filterMap (parseThumbLine r)) ∧
      formatTable r "!top\n#G\n-\n!mid|d\n-k:v" =
        ⟨[⟨r "top", none⟩, ⟨r "mid", some "d"⟩],
          [⟨"G", [⟨"k", EntryValue.single "v"⟩]⟩]⟩ := by
  intro r
  refine ⟨?_, fun s => rfl, rfl⟩
  intro l h
  cases l with
  | nil => simp at h
  | cons c cs =>
    have hc : c = '!' := by simpa using h
    subst hc
    simp only [parseThumbLine, if_pos rfl]
    cases splitFirstUnescaped '|' '!' cs <;> simp

/-- C10 witness: the line `!x` begins with `!` and yields a thumbnail. -/
theorem c10_witness :
    ("!x".data.head? = some '!') ∧
      (parseThumbLine (fun s => s) "!x".data).isSome = true :=
  ⟨by decide,
    (c10_thumbnails_position_independent (fun s => s)).1 "!x".data (by decide)⟩

end Aside
